import Mathlib

/-!
Verification of the uncertainty-prevalence pipeline.

This file gives a shallow embedding, in Lean 4, of the core pipeline of the
repository: the keyword-matching line scanner and date-range driver in
`src/data_collection/gdelt_ngrams_streaming.py`, and the multi-run aggregator
in `scripts/aggregate_outputs.py`.  Python strings are modelled as Lean
`String`s (sequences of code points); Python `dict`/`collections.Counter`
values are modelled as association lists in insertion order; `pandas`
DataFrames are modelled as lists of rows.  I/O (HTTP fetches, file reads) is
modelled by passing the observed outcome as an explicit argument.
-/

namespace UncertaintyPrevalence

/-! ### Python string primitives -/

/-- Model of Python `str.lower()` on a single character (basic-latin range,
as in the data handled by the pipeline). -/
def lowerChar (c : Char) : Char := Char.toLower c

/-- Model of Python `str.lower()`. -/
def lower (s : String) : String := String.mk (s.data.map lowerChar)

/-- Model of Python `c in s` for a single character `c`. -/
def containsChar (s : String) (c : Char) : Bool := decide (c ∈ s.data)

/-- Model of Python `sub in s` (contiguous substring containment). -/
def substrIn (sub s : String) : Bool := decide (sub.data <:+: s.data)

/-- Model of Python `s.split(sep)` for a one-character separator `sep`,
on the underlying character list: the result has one (possibly empty) part
for every gap between consecutive separator occurrences. -/
def splitChar (sep : Char) : List Char → List (List Char)
  | [] => [[]]
  | c :: cs =>
    match splitChar sep cs with
    | [] => [[]]
    | p :: ps => if c == sep then [] :: p :: ps else (c :: p) :: ps

/-- Model of Python `s.strip()`: drop leading and trailing whitespace. -/
def pyStrip (s : String) : String :=
  String.mk (((s.data.dropWhile Char.isWhitespace).reverse.dropWhile
    Char.isWhitespace).reverse)

/-- Model of the Python slice `s[:n]`. -/
def strTake (s : String) (n : Nat) : String := String.mk (s.data.take n)

/-- Model of Python `s.split()` (split on whitespace runs, discarding empty
parts). -/
def pySplitWs (s : String) : List String :=
  (s.split Char.isWhitespace).filter (fun w => w ≠ "")

/-! ### Python `dict` / `collections.Counter` model

A `dict` mapping strings to integers is an association list in insertion
order; a `Counter` is such a `dict` whose update operations add counts. -/

/-- An association list modelling a Python `dict`/`Counter` over strings. -/
abbrev Cnt := List (String × Int)

/-- Lookup in a `dict` (first matching key; keys are unique in any list
built by `dictInsert`). -/
def alookup (d : Cnt) (k : String) : Option Int :=
  (d.find? (fun p => p.1 == k)).map (fun p => p.2)

/-- Model of `d[k] = v`: overwrite in place if the key exists, else append. -/
def dictInsert (d : Cnt) (k : String) (v : Int) : Cnt :=
  if d.any (fun p => p.1 == k) then
    d.map (fun p => if p.1 == k then (k, v) else p)
  else d ++ [(k, v)]

/-- Model of `dict(pairs)` (and of a dict comprehension over `pairs`):
for duplicate keys, the last value wins. -/
def dictOfPairs (ps : List (String × Int)) : Cnt :=
  ps.foldl (fun d p => dictInsert d p.1 p.2) []

/-- Model of `Counter.update(m)` for a mapping `m`: each key of `m` has its
value added to the current count (0 if absent). -/
def counterUpdate (c : Cnt) (m : Cnt) : Cnt :=
  m.foldl (fun c p => dictInsert c p.1 ((alookup c p.1).getD 0 + p.2)) c

/-- Model of `Counter.update(ws)` for a list of words: each occurrence adds
one to that word's count. -/
def counterUpdateList (c : Cnt) (ws : List String) : Cnt :=
  ws.foldl (fun c w => dictInsert c w ((alookup c w).getD 0 + 1)) c

/-- The keys of an association list are pairwise distinct. -/
abbrev keysNodup (d : Cnt) : Prop := (d.map (fun p => p.1)).Nodup

/-! ### The keyword scanner (`GDELTNGramsStreamer.process_ngram_file`)

One line of the gzip JSON-lines stream either fails to parse (or raises
during per-record processing) or yields a record with the fields the scanner
reads via `record.get(_, '')`. -/

/-- The fields of one parsed n-gram record (absent fields read as `""`). -/
structure NGramRecord where
  lang : String
  url : String
  ngram : String
  pre : String
  post : String
  date : String
deriving DecidableEq, Repr

/-- One line of the stream.  `malformed` is a line that is not valid JSON,
or a record whose processing raises before any effect (for instance a
non-string `url` or `ngram` field, which raises at `.split`/`.lower` before
anything is appended).  `record r` is a record that processes normally.
`raising r` is a record that matches and is appended as a mention but then
raises while tokenizing `pre`/`post` for the co-occurrence tally (for
instance a truthy non-string `pre` field such as the JSON number 1, which
raises at `pre.split()`); `r` carries the string forms of the fields as
they appear in the already-built mention (`f"{pre} ..."` stringifies them).
The `except` handler logs and moves on without undoing the append. -/
inductive Line where
  | malformed
  | record (r : NGramRecord)
  | raising (r : NGramRecord)
deriving DecidableEq, Repr

/-- An emitted uncertainty mention. -/
structure Mention where
  date : String
  url : String
  domain : String
  keywords : List String
  context : String
  ngram : String
deriving DecidableEq, Repr

/-- Domain extraction:
`article_url.split('/')[2] if '//' in article_url else article_url.split('/')[0]`. -/
def extractDomain (url : String) : String :=
  if substrIn "//" url then
    String.mk ((splitChar '/' url.data).getD 2 [])
  else
    String.mk ((splitChar '/' url.data).getD 0 [])

/-- The per-keyword match test, for an already-lowercased n-gram and the
lowercased keyword `kw_lower`: single-word keywords require exact equality,
multi-word keywords require substring containment. -/
def keywordMatchCond (ngram kwLower : String) : Bool :=
  (!(containsChar kwLower ' ') && ngram == kwLower) ||
    (containsChar kwLower ' ' && substrIn kwLower ngram)

/-- The keyword loop with `break`: the first matching keyword is appended
and the loop stops, so the result is `[kw]` for the first match or `[]`. -/
def matchedKeywords (kws : List String) (ngram : String) : List String :=
  match kws.find? (fun kw => keywordMatchCond ngram (lower kw)) with
  | some kw => [kw]
  | none => []

/-- `f"{pre} {ngram} {post}".strip()`, then `full_context[:500] if
full_context else ''`. -/
def buildContext (pre ngram post : String) : String :=
  let full := pyStrip (pre ++ " " ++ ngram ++ " " ++ post)
  if full = "" then "" else strTake full 500

/-- The stopword list used when tallying co-occurring words. -/
def stopwordsBase : List String :=
  ["this", "that", "with", "from", "have", "been", "will", "would", "could",
   "should", "their", "about", "there", "these", "those", "they", "what",
   "when", "where", "which", "while", "your"]

/-- Words of `s` longer than three characters, lowercased:
`[w.lower() for w in s.split() if len(w) > 3]`. -/
def contextWords (s : String) : List String :=
  ((pySplitWs s).filter (fun w => 3 < w.length)).map lower

/-- Process one line of the stream, threading the accumulated mention list
and co-occurrence counter.  `kws` is `self.keywords` (already lowercased by
`__init__`).  On a `raising` line the mention append (which precedes the
tokenization in the source) has already happened when the exception is
raised, so the handler keeps the mention and only the co-occurrence update
is lost. -/
def processLine (kws : List String) (acc : List Mention × Cnt) (l : Line) :
    List Mention × Cnt :=
  match l with
  | .malformed => acc
  | .record r =>
    if r.lang ≠ "en" then acc
    else if r.url = "" then acc
    else
      let domain := extractDomain r.url
      let ngram := lower r.ngram
      let matched := matchedKeywords kws ngram
      if matched.isEmpty then acc
      else
        let context := buildContext r.pre ngram r.post
        let m : Mention := ⟨r.date, r.url, domain, matched, context, ngram⟩
        let mentions := acc.1 ++ [m]
        let terms :=
          if r.pre ≠ "" ∨ r.post ≠ "" then
            let all_words := contextWords r.pre ++ contextWords r.post
            let stopwords := stopwordsBase ++ kws.map lower
            counterUpdateList acc.2
              (all_words.filter (fun w => ¬ w ∈ stopwords))
          else acc.2
        (mentions, terms)
  | .raising r =>
    if r.lang ≠ "en" then acc
    else if r.url = "" then acc
    else
      let domain := extractDomain r.url
      let ngram := lower r.ngram
      let matched := matchedKeywords kws ngram
      if matched.isEmpty then acc
      else
        let context := buildContext r.pre ngram r.post
        let m : Mention := ⟨r.date, r.url, domain, matched, context, ngram⟩
        (acc.1 ++ [m], acc.2)

/-- Process the decompressed line stream of one n-gram file. -/
def scanLines (kws : List String) (lines : List Line) : List Mention × Cnt :=
  lines.foldl (processLine kws) ([], [])

/-- The lines of a stream that neither fail to parse nor raise during
per-record processing. -/
def lineOk : Line → Bool
  | .malformed => false
  | .record _ => true
  | .raising _ => false

/-- The observed outcome of fetching one n-gram file: a transport error
(`requests.RequestException`), or an HTTP response with a status code and,
when the status is 200, the decompressed line stream. -/
inductive FetchOutcome where
  | transportError
  | response (status : Nat) (lines : List Line)

/-- `process_ngram_file`, with the network interaction abstracted into the
observed `FetchOutcome`: a transport error or a non-200 status returns
`([], Counter())`; otherwise the lines are scanned. -/
def process_ngram_file (kws : List String) (fetch : FetchOutcome) :
    List Mention × Cnt :=
  match fetch with
  | .transportError => ([], [])
  | .response status lines =>
    if status ≠ 200 then ([], [])
    else scanLines kws lines

/-! ### The date-range driver (`GDELTNGramsStreamer.process_date_range`) -/

/-- A `datetime`, at the resolution the driver needs: a day number and the
minutes elapsed within the day.  `replace(hour=0, minute=1, second=0,
microsecond=0)` yields minute 1 of the same day; `+ timedelta(days=1)`
increments the day and keeps the time of day. -/
structure PyDateTime where
  day : Nat
  mins : Nat
deriving DecidableEq, Repr

/-- `datetime` comparison (lexicographic on day, then time of day). -/
def dtLe (a b : PyDateTime) : Bool :=
  a.day < b.day || (a.day == b.day && a.mins ≤ b.mins)

/-- The `while current_date <= end_date` loop of `process_date_range`,
threading the accumulated mention list and term counter.  `scan` abstracts
`self.process_ngram_file`. -/
def dateRangeLoop (scan : PyDateTime → List Mention × Cnt)
    (current endD : PyDateTime) (accM : List Mention) (accT : Cnt) :
    List Mention × Cnt :=
  if h : dtLe current endD then
    let r := scan ⟨current.day, 1⟩
    dateRangeLoop scan ⟨current.day + 1, current.mins⟩ endD
      (accM ++ r.1) (counterUpdate accT r.2)
  else (accM, accT)
termination_by endD.day + 1 - current.day
decreasing_by
  unfold dtLe at h
  rcases Bool.or_eq_true _ _ |>.mp h with h1 | h2
  · have h3 := of_decide_eq_true h1
    omega
  · have h4 : current.day = endD.day :=
      beq_iff_eq.mp (Bool.and_eq_true _ _ |>.mp h2).1
    omega

/-- `process_date_range`: iterate from `start_date` to `end_date` inclusive,
scanning each day's 00:01 file and accumulating results. -/
def process_date_range (scan : PyDateTime → List Mention × Cnt)
    (start_date end_date : PyDateTime) : List Mention × Cnt :=
  dateRangeLoop scan start_date end_date [] []

/-! ### The aggregator (`scripts/aggregate_outputs.py`)

The aggregator reads a directory of prior-run files; each file either fails
to read (and is skipped with a log message) or yields its rows.  A mention
CSV row carries the columns the aggregator keys on, plus the rest; a
co-occurrence CSV row and a word-cloud JSON item are (word, count) pairs. -/

/-- One row of a mention CSV, with the columns used by the aggregator
(`date`, `url`, `context`) explicit and the remaining columns opaque. -/
structure MRow where
  date : String
  url : String
  context : String
  rest : List String
deriving DecidableEq, Repr

/-- The deduplication key of `drop_duplicates(subset=['date','url','context'])`. -/
def mkey (r : MRow) : String × String × String := (r.date, r.url, r.context)

/-- `drop_duplicates`: keep the first row for each key, drop later rows
whose key was already seen. -/
def dropDupsAux (seen : List (String × String × String)) :
    List MRow → List MRow
  | [] => []
  | r :: rs =>
    if mkey r ∈ seen then dropDupsAux seen rs
    else r :: dropDupsAux (mkey r :: seen) rs

/-- `aggregate_mentions`, with file reading abstracted: `files` lists the
globbed files, `none` standing for an unreadable one.  `td` abstracts
`pd.to_datetime` on the `date` column.  Readable files' rows are
concatenated, deduplicated on (date, url, context) and sorted by parsed
date. -/
def aggregate_mentions (td : String → Nat)
    (files : List (Option (List MRow))) : List MRow :=
  let dfs := files.filterMap id
  if dfs.isEmpty then []
  else
    let combined := dfs.flatten
    let deduped := dropDupsAux [] combined
    List.insertionSort (fun a b => td a.date ≤ td b.date) deduped

/-- `aggregate_cooccurrences`, with file reading abstracted: each readable
file's (word, count) rows become a `dict` (`dict(zip(df['word'], df['…']))`)
that is added into a running `Counter`; the result is sorted by count
descending. -/
def aggregate_cooccurrences (files : List (Option (List (String × Int)))) :
    Cnt :=
  let word_counts := files.foldl
    (fun wc fo =>
      match fo with
      | none => wc
      | some rows => counterUpdate wc (dictOfPairs rows)) []
  if word_counts.isEmpty then []
  else List.insertionSort (fun a b => b.2 ≤ a.2) word_counts

/-- `aggregate_wordcloud`, with file reading abstracted: each readable
file's {text, value} items become a `dict` (a dict comprehension, so within
one file a later item for the same text overwrites an earlier one) that is
added into a running `Counter`; the result is sorted by value descending. -/
def aggregate_wordcloud (files : List (Option (List (String × Int)))) :
    Cnt :=
  let word_counts := files.foldl
    (fun wc fo =>
      match fo with
      | none => wc
      | some rows => counterUpdate wc (dictOfPairs rows)) []
  if word_counts.isEmpty then []
  else List.insertionSort (fun a b => b.2 ≤ a.2) word_counts

/-! ### Specification-side helpers (used only to state the theorems) -/

/-- The value of the last pair for word `w` in a list of (word, value)
pairs, if any. -/
def lastVal (ps : List (String × Int)) (w : String) : Option Int :=
  match ps with
  | [] => none
  | p :: rest =>
    match lastVal rest w with
    | some v => some v
    | none => if p.1 = w then some p.2 else none

/-- The sum of all counts recorded for word `w` in one file's rows. -/
def sumCounts (rows : List (String × Int)) (w : String) : Int :=
  ((rows.filter (fun p => p.1 = w)).map (fun p => p.2)).sum

/-- The number of rows with deduplication key `k`. -/
def countKey (l : List MRow) (k : String × String × String) : Nat :=
  l.countP (fun r => decide (mkey r = k))

/-- A string's length is the length of its character list. -/
theorem length_data (s : String) : s.length = s.data.length := rfl

/-! ### Character-level lemmas -/

theorem toNat_ofNat_valid {n : Nat} (h : n.isValidChar) :
    (Char.ofNat n).toNat = n := by
  rw [Char.ofNat, dif_pos h]
  rfl

theorem lowerChar_toNat_of_upper {c : Char}
    (h : 65 ≤ c.toNat ∧ c.toNat ≤ 90) :
    (lowerChar c).toNat = c.toNat + 32 := by
  have hv : (c.toNat + 32).isValidChar := by
    left
    omega
  rw [lowerChar, Char.toLower, if_pos h]
  exact toNat_ofNat_valid hv

theorem lowerChar_of_not_upper {c : Char}
    (h : ¬ (65 ≤ c.toNat ∧ c.toNat ≤ 90)) : lowerChar c = c := by
  rw [lowerChar, Char.toLower, if_neg h]

theorem lowerChar_eq_space_iff (c : Char) : lowerChar c = ' ' ↔ c = ' ' := by
  by_cases h : 65 ≤ c.toNat ∧ c.toNat ≤ 90
  · constructor
    · intro he
      have := lowerChar_toNat_of_upper h
      rw [he] at this
      have hsp : (' ' : Char).toNat = 32 := rfl
      omega
    · intro he
      rw [he] at h
      have hsp : (' ' : Char).toNat = 32 := rfl
      omega
  · rw [lowerChar_of_not_upper h]

theorem mem_space_lower_data (s : String) :
    ' ' ∈ (lower s).data ↔ ' ' ∈ s.data := by
  show ' ' ∈ s.data.map lowerChar ↔ ' ' ∈ s.data
  rw [List.mem_map]
  constructor
  · rintro ⟨c, hc, he⟩
    rw [(lowerChar_eq_space_iff c).mp he] at hc
    exact hc
  · intro hc
    exact ⟨' ', hc, (lowerChar_eq_space_iff ' ').mpr rfl⟩

/-- Lowercasing neither creates nor removes spaces. -/
theorem containsChar_lower_space (s : String) :
    containsChar (lower s) ' ' = containsChar s ' ' := by
  unfold containsChar
  by_cases h : ' ' ∈ s.data
  · rw [decide_eq_true ((mem_space_lower_data s).mpr h), decide_eq_true h]
  · rw [decide_eq_false (fun hc => h ((mem_space_lower_data s).mp hc)),
      decide_eq_false h]

/-- `splitChar` always returns a non-empty list of parts. -/
theorem splitChar_ne_nil (sep : Char) (l : List Char) :
    splitChar sep l ≠ [] := by
  cases l with
  | nil => simp [splitChar]
  | cons c cs =>
    rw [splitChar]
    cases h : splitChar sep cs with
    | nil => simp
    | cons p ps =>
      by_cases hc : c == sep <;> simp [hc]

/-- The number of parts is one more than the number of separators. -/
theorem splitChar_length (sep : Char) (l : List Char) :
    (splitChar sep l).length = l.count sep + 1 := by
  induction l with
  | nil => simp [splitChar]
  | cons c cs ih =>
    rw [splitChar]
    cases h : splitChar sep cs with
    | nil => exact absurd h (splitChar_ne_nil sep cs)
    | cons p ps =>
      rw [h] at ih
      simp only [List.length_cons] at ih
      show (if (c == sep) = true then [] :: p :: ps else (c :: p) :: ps).length
        = (c :: cs).count sep + 1
      by_cases hc : c = sep
      · subst hc
        rw [if_pos (by simp), List.count_cons_self]
        simp only [List.length_cons]
        omega
      · rw [if_neg (by simp [hc]), List.count_cons_of_ne (fun he => hc he.symm)]
        simp only [List.length_cons]
        omega

theorem dtLe_day_le {a b : PyDateTime} (h : dtLe a b = true) :
    a.day <= b.day := by
  unfold dtLe at h
  rcases Bool.or_eq_true _ _ |>.mp h with h1 | h2
  · exact Nat.le_of_lt (of_decide_eq_true h1)
  · have h4 : a.day = b.day := beq_iff_eq.mp (Bool.and_eq_true _ _ |>.mp h2).1
    omega

/-! ### Dictionary lemmas -/

theorem alookup_nil (k : String) : alookup [] k = none := rfl

theorem alookup_cons (p : String × Int) (l : Cnt) (k : String) :
    alookup (p :: l) k = if p.1 = k then some p.2 else alookup l k := by
  unfold alookup
  by_cases h : p.1 = k
  · rw [List.find?_cons_of_pos _ (by simp [h]), if_pos h]
    rfl
  · rw [List.find?_cons_of_neg _ (by simp [h]), if_neg h]

theorem alookup_eq_none_iff (l : Cnt) (k : String) :
    alookup l k = none ↔ ¬ k ∈ l.map (fun p => p.1) := by
  induction l with
  | nil => simp [alookup_nil]
  | cons p rest ih =>
    rw [alookup_cons]
    by_cases h : p.1 = k
    · simp [h]
    · simp only [if_neg h, ih, List.map_cons, List.mem_cons]
      constructor
      · intro hn hc
        rcases hc with hc | hc
        · exact h hc.symm
        · exact hn hc
      · intro hn hc
        exact hn (Or.inr hc)

theorem alookup_append (d e : Cnt) (k : String) :
    alookup (d ++ e) k =
      match alookup d k with
      | some v => some v
      | none => alookup e k := by
  induction d with
  | nil => simp [alookup_nil]
  | cons p rest ih =>
    rw [List.cons_append, alookup_cons, alookup_cons]
    by_cases h : p.1 = k
    · rw [if_pos h, if_pos h]
    · rw [if_neg h, if_neg h, ih]

theorem alookup_overwrite (d : Cnt) (k : String) (v : Int) (k' : String) :
    alookup (d.map (fun p => if p.1 == k then (k, v) else p)) k' =
      if k' = k then (if d.any (fun p => p.1 == k) then some v else none)
      else alookup d k' := by
  induction d with
  | nil =>
    by_cases h : k' = k <;> simp [h, alookup_nil]
  | cons p rest ih =>
    simp only [List.map_cons, List.any_cons]
    by_cases hp : p.1 = k
    · have hb : (p.1 == k) = true := by simp [hp]
      simp only [hb, Bool.true_or, if_true]
      rw [alookup_cons]
      by_cases hk : k' = k
      · subst hk
        rw [if_pos rfl, if_pos rfl]
      · rw [if_neg (fun he : (k, v).1 = k' => hk he.symm), ih, if_neg hk,
          if_neg hk, alookup_cons,
          if_neg (fun he : p.1 = k' => hk (hp ▸ he).symm)]
    · have hb : (p.1 == k) = false := by simp [hp]
      simp only [hb, Bool.false_eq_true, if_false, Bool.false_or]
      rw [alookup_cons, ih, alookup_cons]
      by_cases hpk : p.1 = k'
      · have hk : ¬ k' = k := fun he => hp (he ▸ hpk)
        rw [if_pos hpk, if_neg hk, if_pos hpk]
      · rw [if_neg hpk, if_neg hpk]

/-- `dictInsert` looked up at any key. -/
theorem alookup_dictInsert (d : Cnt) (k : String) (v : Int) (k' : String) :
    alookup (dictInsert d k v) k' =
      if k' = k then some v else alookup d k' := by
  unfold dictInsert
  by_cases hany : d.any (fun p => p.1 == k)
  · rw [if_pos hany, alookup_overwrite, hany]
    simp
  · rw [if_neg hany, alookup_append]
    have hnone : alookup d k = none := by
      rw [alookup_eq_none_iff]
      intro hmem
      apply hany
      rw [List.any_eq_true]
      rcases List.mem_map.mp hmem with ⟨p, hp, he⟩
      exact ⟨p, hp, by simp [he]⟩
    by_cases hk : k' = k
    · rw [if_pos hk, hk, hnone, alookup_cons, if_pos rfl]
    · rw [if_neg hk]
      cases hd : alookup d k' with
      | some v' => rfl
      | none =>
        rw [alookup_cons, if_neg (fun he => hk he.symm), alookup_nil]

theorem keys_dictInsert (d : Cnt) (k : String) (v : Int) :
    (dictInsert d k v).map (fun p => p.1) =
      if d.any (fun p => p.1 == k) then d.map (fun p => p.1)
      else d.map (fun p => p.1) ++ [k] := by
  unfold dictInsert
  by_cases hany : d.any (fun p => p.1 == k)
  · rw [if_pos hany, if_pos hany, List.map_map]
    apply List.map_congr_left
    intro p _
    by_cases hp : p.1 = k
    · simp [hp]
    · simp [hp]
  · rw [if_neg hany, if_neg hany, List.map_append]
    rfl

theorem keysNodup_nil : keysNodup [] := by
  unfold keysNodup
  exact List.nodup_nil

theorem keysNodup_dictInsert {d : Cnt} (h : keysNodup d) (k : String)
    (v : Int) : keysNodup (dictInsert d k v) := by
  unfold keysNodup at h ⊢
  rw [keys_dictInsert]
  by_cases hany : d.any (fun p => p.1 == k)
  · rwa [if_pos hany]
  · rw [if_neg hany]
    rw [List.nodup_append]
    refine ⟨h, List.nodup_singleton k, ?_⟩
    intro a ha hb
    rw [List.mem_singleton] at hb
    subst hb
    apply hany
    rw [List.any_eq_true]
    rcases List.mem_map.mp ha with ⟨p, hp, he⟩
    exact ⟨p, hp, by simp [he]⟩

theorem keysNodup_counterUpdate (m : Cnt) :
    ∀ c : Cnt, keysNodup c → keysNodup (counterUpdate c m) := by
  induction m with
  | nil => intro c h; exact h
  | cons p rest ih =>
    intro c h
    exact ih _ (keysNodup_dictInsert h _ _)

theorem keysNodup_foldl_dictInsert (ps : List (String × Int)) :
    ∀ c : Cnt, keysNodup c →
      keysNodup (ps.foldl (fun d p => dictInsert d p.1 p.2) c) := by
  induction ps with
  | nil => intro c h; exact h
  | cons p rest ih =>
    intro c h
    exact ih _ (keysNodup_dictInsert h _ _)

theorem keysNodup_dictOfPairs (ps : List (String × Int)) :
    keysNodup (dictOfPairs ps) :=
  keysNodup_foldl_dictInsert ps [] keysNodup_nil

/-- The value of `counterUpdate` at any key, for an update mapping with
unique keys. -/
theorem alookup_counterUpdate (m : Cnt) (hm : keysNodup m) :
    ∀ (c : Cnt) (w : String),
      alookup (counterUpdate c m) w =
        match alookup m w with
        | some v => some ((alookup c w).getD 0 + v)
        | none => alookup c w := by
  induction m with
  | nil => intro c w; simp [counterUpdate, alookup_nil]
  | cons p rest ih =>
    intro c w
    have hm' : keysNodup rest := by
      unfold keysNodup at hm ⊢
      exact (List.nodup_cons.mp hm).2
    have hpmem : ¬ p.1 ∈ rest.map (fun q => q.1) := by
      unfold keysNodup at hm
      exact (List.nodup_cons.mp hm).1
    show alookup
      (counterUpdate (dictInsert c p.1 ((alookup c p.1).getD 0 + p.2)) rest) w
        = _
    rw [ih hm']
    cases hr : alookup rest w with
    | some v =>
      have hwmem : w ∈ rest.map (fun q => q.1) := by
        by_contra hc
        rw [← alookup_eq_none_iff] at hc
        rw [hr] at hc
        exact Option.noConfusion hc
      have hwp : ¬ w = p.1 := fun he => hpmem (he ▸ hwmem)
      rw [alookup_dictInsert, if_neg hwp, alookup_cons,
        if_neg (fun he => hwp he.symm), hr]
    | none =>
      rw [alookup_dictInsert]
      by_cases hwp : w = p.1
      · subst hwp
        rw [if_pos rfl, alookup_cons, if_pos rfl]
      · rw [if_neg hwp, alookup_cons, if_neg (fun he => hwp he.symm), hr]

/-- The count of `counterUpdate` at any key, defaulting absent keys to 0. -/
theorem getD_counterUpdate (m : Cnt) (hm : keysNodup m) (c : Cnt)
    (w : String) :
    (alookup (counterUpdate c m) w).getD 0 =
      (alookup c w).getD 0 + (alookup m w).getD 0 := by
  rw [alookup_counterUpdate m hm]
  cases alookup m w <;> simp

theorem lastVal_cons (p : String × Int) (rest : List (String × Int))
    (w : String) :
    lastVal (p :: rest) w =
      match lastVal rest w with
      | some v => some v
      | none => if p.1 = w then some p.2 else none := rfl

theorem alookup_foldl_dictInsert (ps : List (String × Int)) :
    ∀ (d : Cnt) (w : String),
      alookup (ps.foldl (fun d p => dictInsert d p.1 p.2) d) w =
        match lastVal ps w with
        | some v => some v
        | none => alookup d w := by
  induction ps with
  | nil => intro d w; rfl
  | cons p rest ih =>
    intro d w
    show alookup (rest.foldl _ (dictInsert d p.1 p.2)) w = _
    rw [ih, lastVal_cons]
    cases hr : lastVal rest w with
    | some v => rfl
    | none =>
      rw [alookup_dictInsert]
      by_cases hwp : w = p.1
      · rw [if_pos hwp, if_pos hwp.symm]
      · rw [if_neg hwp, if_neg (fun he => hwp he.symm)]

/-- Looking up a word in `dictOfPairs rows` yields the value of the last
pair for that word: within one input, later entries overwrite earlier. -/
theorem alookup_dictOfPairs (ps : List (String × Int)) (w : String) :
    alookup (dictOfPairs ps) w = lastVal ps w := by
  rw [dictOfPairs, alookup_foldl_dictInsert]
  cases lastVal ps w <;> rfl

theorem lastVal_eq_none_iff (ps : List (String × Int)) (w : String) :
    lastVal ps w = none ↔ ¬ w ∈ ps.map (fun p => p.1) := by
  induction ps with
  | nil => simp [lastVal]
  | cons p rest ih =>
    rw [lastVal_cons]
    cases hr : lastVal rest w with
    | some v =>
      rw [hr] at ih
      have hmem : w ∈ rest.map (fun p => p.1) := by
        by_contra hc
        exact Option.noConfusion (ih.mpr hc)
      simp only [List.map_cons, List.mem_cons]
      constructor
      · intro he
        exact Option.noConfusion he
      · intro hn
        exact absurd (Or.inr hmem) hn
    | none =>
      rw [hr] at ih
      simp only [List.map_cons, List.mem_cons]
      by_cases hp : p.1 = w
      · simp [hp]
      · simp only [if_neg hp]
        constructor
        · intro _ hc
          rcases hc with hc | hc
          · exact hp hc.symm
          · exact (ih.mp rfl) hc
        · intro _
          trivial

theorem sumCounts_nil (w : String) : sumCounts [] w = 0 := rfl

theorem sumCounts_cons (p : String × Int) (rest : List (String × Int))
    (w : String) :
    sumCounts (p :: rest) w =
      (if p.1 = w then p.2 else 0) + sumCounts rest w := by
  unfold sumCounts
  by_cases h : p.1 = w
  · rw [List.filter_cons_of_pos (by simp [h]), List.map_cons, List.sum_cons,
      if_pos h]
  · rw [List.filter_cons_of_neg (by simp [h]), if_neg h, zero_add]

theorem sumCounts_eq_zero_of_not_mem {rows : List (String × Int)}
    {w : String} (h : ¬ w ∈ rows.map (fun p => p.1)) :
    sumCounts rows w = 0 := by
  induction rows with
  | nil => rfl
  | cons p rest ih =>
    simp only [List.map_cons, List.mem_cons] at h
    rw [sumCounts_cons, if_neg (fun he => h (Or.inl he.symm)),
      ih (fun hc => h (Or.inr hc)), add_zero]

/-- For rows with unique words, the last value for a word is the sum of all
its counts. -/
theorem getD_lastVal_eq_sumCounts {rows : List (String × Int)}
    (h : keysNodup rows) (w : String) :
    (lastVal rows w).getD 0 = sumCounts rows w := by
  induction rows with
  | nil => rfl
  | cons p rest ih =>
    have h' : keysNodup rest := (List.nodup_cons.mp h).2
    have hpmem : ¬ p.1 ∈ rest.map (fun q => q.1) := (List.nodup_cons.mp h).1
    rw [lastVal_cons, sumCounts_cons]
    by_cases hw : p.1 = w
    · have hnone : lastVal rest w = none := by
        rw [lastVal_eq_none_iff]
        intro hc
        exact hpmem (hw ▸ hc)
      rw [hnone, if_pos hw, if_pos hw,
        sumCounts_eq_zero_of_not_mem (hw ▸ hpmem), add_zero]
      rfl
    · cases hr : lastVal rest w with
      | some v =>
        rw [hr] at ih
        rw [if_neg hw, if_neg hw, zero_add, ← ih h']
      | none =>
        rw [hr] at ih
        rw [if_neg hw, if_neg hw, zero_add, ← ih h']

theorem alookup_eq_filter_head (l : Cnt) (w : String) :
    alookup l w =
      ((l.filter (fun p => p.1 == w)).head?).map (fun p => p.2) := by
  induction l with
  | nil => rfl
  | cons p rest ih =>
    rw [alookup_cons]
    by_cases h : p.1 = w
    · rw [if_pos h, List.filter_cons_of_pos (by simp [h]), List.head?_cons]
      rfl
    · rw [if_neg h, List.filter_cons_of_neg (by simp [h]), ih]

theorem filter_key_length_le_one {l : Cnt} (h : keysNodup l) (w : String) :
    (l.filter (fun p => p.1 == w)).length ≤ 1 := by
  induction l with
  | nil => simp
  | cons p rest ih =>
    have h' : keysNodup rest := (List.nodup_cons.mp h).2
    have hpmem : ¬ p.1 ∈ rest.map (fun q => q.1) := (List.nodup_cons.mp h).1
    by_cases hp : p.1 = w
    · rw [List.filter_cons_of_pos (by simp [hp])]
      have hnil : rest.filter (fun p => p.1 == w) = [] := by
        rw [List.filter_eq_nil_iff]
        intro q hq hc
        apply hpmem
        rw [hp, ← show q.1 = w from by simpa using hc]
        exact List.mem_map.mpr ⟨q, hq, rfl⟩
      rw [hnil]
      simp
    · rw [List.filter_cons_of_neg (by simp [hp])]
      exact ih h'

/-- For association lists with unique keys, lookup is invariant under
permutation. -/
theorem alookup_of_perm {l l' : Cnt} (h : keysNodup l) (hp : l.Perm l')
    (w : String) : alookup l w = alookup l' w := by
  rw [alookup_eq_filter_head, alookup_eq_filter_head]
  have hf := hp.filter (fun p => p.1 == w)
  have h1 := filter_key_length_le_one h w
  cases hfl : l.filter (fun p => p.1 == w) with
  | nil =>
    rw [hfl] at hf
    rw [← hf.symm.eq_nil]
  | cons q qs =>
    rw [hfl] at hf h1
    have hqs : qs = [] := by
      rw [List.length_cons] at h1
      exact List.eq_nil_of_length_eq_zero (by omega)
    subst hqs
    rw [List.perm_singleton.mp hf.symm]

/-- The shared file-merging fold of `aggregate_cooccurrences` and
`aggregate_wordcloud`. -/
theorem keysNodup_files_fold (files : List (Option (List (String × Int)))) :
    ∀ c : Cnt, keysNodup c →
      keysNodup (files.foldl
        (fun wc fo =>
          match fo with
          | none => wc
          | some rows => counterUpdate wc (dictOfPairs rows)) c) := by
  induction files with
  | nil => intro c h; exact h
  | cons fo rest ih =>
    intro c h
    cases fo with
    | none => exact ih c h
    | some rows => exact ih _ (keysNodup_counterUpdate _ _ h)

theorem getD_files_fold (files : List (Option (List (String × Int))))
    (w : String) :
    ∀ c : Cnt, keysNodup c →
      (alookup (files.foldl
        (fun wc fo =>
          match fo with
          | none => wc
          | some rows => counterUpdate wc (dictOfPairs rows)) c) w).getD 0 =
      (alookup c w).getD 0 +
        (files.map (fun fo =>
          match fo with
          | none => (0 : Int)
          | some rows => (lastVal rows w).getD 0)).sum := by
  induction files with
  | nil => intro c _; simp
  | cons fo rest ih =>
    intro c hc
    cases fo with
    | none =>
      rw [List.foldl_cons, List.map_cons, List.sum_cons]
      show (alookup (rest.foldl _ c) w).getD 0 = _
      rw [ih c hc]
      ring
    | some rows =>
      rw [List.foldl_cons, List.map_cons, List.sum_cons]
      show (alookup (rest.foldl _ (counterUpdate c (dictOfPairs rows))) w).getD 0
        = _
      rw [ih _ (keysNodup_counterUpdate _ _ hc),
        getD_counterUpdate _ (keysNodup_dictOfPairs rows),
        alookup_dictOfPairs]
      ring

/-! ### Deduplication lemmas -/

theorem countKey_nil (k : String × String × String) : countKey [] k = 0 := rfl

theorem countKey_cons (r : MRow) (l : List MRow)
    (k : String × String × String) :
    countKey (r :: l) k = countKey l k + (if mkey r = k then 1 else 0) := by
  unfold countKey
  rw [List.countP_cons]
  by_cases h : mkey r = k <;> simp [h]

theorem countKey_dropDupsAux (l : List MRow) :
    ∀ (seen : List (String × String × String))
      (k : String × String × String),
      countKey (dropDupsAux seen l) k =
        if k ∈ seen then 0
        else if l.any (fun r => mkey r == k) then 1 else 0 := by
  induction l with
  | nil =>
    intro seen k
    rw [dropDupsAux, countKey_nil]
    by_cases hk : k ∈ seen <;> simp [hk]
  | cons r rs ih =>
    intro seen k
    rw [dropDupsAux, List.any_cons]
    by_cases hr : mkey r ∈ seen
    · rw [if_pos hr, ih]
      by_cases hk : k ∈ seen
      · rw [if_pos hk, if_pos hk]
      · have hne : (mkey r == k) = false := by
          simp only [beq_eq_false_iff_ne, ne_eq]
          intro he
          exact hk (he ▸ hr)
        rw [if_neg hk, if_neg hk, hne, Bool.false_or]
    · rw [if_neg hr, countKey_cons, ih]
      by_cases hk : k ∈ seen
      · have hne : ¬ mkey r = k := fun he => hr (he ▸ hk)
        rw [if_pos (List.mem_cons_of_mem _ hk), if_pos hk, if_neg hne,
          add_zero]
      · by_cases hm : mkey r = k
        · rw [if_pos (hm ▸ List.mem_cons_self _ _), if_pos hm, if_neg hk,
            show (mkey r == k) = true from (by simp [hm]), Bool.true_or,
            if_pos rfl, zero_add]
        · have hk' : ¬ k ∈ mkey r :: seen := by
            rw [List.mem_cons]
            rintro (he | he)
            · exact hm he.symm
            · exact hk he
          rw [if_neg hk', if_neg hk, if_neg hm, add_zero,
            show (mkey r == k) = false from (by simp [hm]), Bool.false_or]

/-! ### Scanner lemmas -/

theorem matchedKeywords_eq (kws : List String) (ngram : String) :
    matchedKeywords kws ngram = [] ∨
      ∃ kw, matchedKeywords kws ngram = [kw] := by
  unfold matchedKeywords
  cases kws.find? (fun kw => keywordMatchCond ngram (lower kw)) with
  | none => exact Or.inl rfl
  | some kw => exact Or.inr ⟨kw, rfl⟩

theorem buildContext_length_le (pre ngram post : String) :
    (buildContext pre ngram post).length ≤ 500 := by
  unfold buildContext
  by_cases h : pyStrip (pre ++ " " ++ ngram ++ " " ++ post) = ""
  · rw [if_pos h]
    decide
  · rw [if_neg h]
    show ((pyStrip (pre ++ " " ++ ngram ++ " " ++ post)).data.take 500).length
      ≤ 500
    rw [List.length_take]
    exact min_le_left _ _

/-- Every mention appended by `processLine` has a singleton keyword list and
a context built by `buildContext` (hence bounded). -/
theorem processLine_mention (kws : List String) (acc : List Mention × Cnt)
    (l : Line) (m : Mention) (hm : m ∈ (processLine kws acc l).1) :
    m ∈ acc.1 ∨
      ((∃ kw, m.keywords = [kw]) ∧
        ∃ pre ng post, m.context = buildContext pre ng post) := by
  cases l with
  | malformed => exact Or.inl hm
  | record r =>
    simp only [processLine] at hm
    by_cases h1 : r.lang ≠ "en"
    · rw [if_pos h1] at hm
      exact Or.inl hm
    · rw [if_neg h1] at hm
      by_cases h2 : r.url = ""
      · rw [if_pos h2] at hm
        exact Or.inl hm
      · rw [if_neg h2] at hm
        by_cases h3 : (matchedKeywords kws (lower r.ngram)).isEmpty
        · rw [if_pos h3] at hm
          exact Or.inl hm
        · rw [if_neg h3] at hm
          simp only [List.mem_append, List.mem_singleton] at hm
          rcases hm with hm | hm
          · exact Or.inl hm
          · refine Or.inr ⟨?_, ?_⟩
            · rcases matchedKeywords_eq kws (lower r.ngram) with he | ⟨kw, he⟩
              · rw [hm]
                rw [he] at h3
                exact absurd rfl h3
              · exact ⟨kw, by rw [hm, he]⟩
            · exact ⟨r.pre, lower r.ngram, r.post, by rw [hm]⟩
  | raising r =>
    simp only [processLine] at hm
    by_cases h1 : r.lang ≠ "en"
    · rw [if_pos h1] at hm
      exact Or.inl hm
    · rw [if_neg h1] at hm
      by_cases h2 : r.url = ""
      · rw [if_pos h2] at hm
        exact Or.inl hm
      · rw [if_neg h2] at hm
        by_cases h3 : (matchedKeywords kws (lower r.ngram)).isEmpty
        · rw [if_pos h3] at hm
          exact Or.inl hm
        · rw [if_neg h3] at hm
          simp only [List.mem_append, List.mem_singleton] at hm
          rcases hm with hm | hm
          · exact Or.inl hm
          · refine Or.inr ⟨?_, ?_⟩
            · rcases matchedKeywords_eq kws (lower r.ngram) with he | ⟨kw, he⟩
              · rw [hm]
                rw [he] at h3
                exact absurd rfl h3
              · exact ⟨kw, by rw [hm, he]⟩
            · exact ⟨r.pre, lower r.ngram, r.post, by rw [hm]⟩

/-- Every mention in the scanner output (beyond the initial accumulator) has
a singleton keyword list and a `buildContext` context. -/
theorem scan_fold_mention (kws : List String) (lines : List Line) :
    ∀ (acc : List Mention × Cnt) (m : Mention),
      m ∈ (lines.foldl (processLine kws) acc).1 →
      m ∈ acc.1 ∨
        ((∃ kw, m.keywords = [kw]) ∧
          ∃ pre ng post, m.context = buildContext pre ng post) := by
  induction lines with
  | nil => intro acc m hm; exact Or.inl hm
  | cons l rest ih =>
    intro acc m hm
    rw [List.foldl_cons] at hm
    rcases ih _ m hm with hacc | hshape
    · exact processLine_mention kws acc l m hacc
    · exact Or.inr hshape

/-- Lines that fail to parse (or raise before any effect) contribute
nothing: a fold over the stream equals the fold over the stream with those
lines removed. -/
theorem foldl_processLine_filter (kws : List String) (lines : List Line) :
    ∀ acc : List Mention × Cnt,
      lines.foldl (processLine kws) acc =
        (lines.filter (fun l => l ≠ Line.malformed)).foldl
          (processLine kws) acc := by
  induction lines with
  | nil => intro acc; rfl
  | cons l rest ih =>
    intro acc
    cases l with
    | malformed =>
      rw [List.foldl_cons, List.filter_cons_of_neg (by simp)]
      exact ih acc
    | record r =>
      rw [List.foldl_cons, List.filter_cons_of_pos (by simp), List.foldl_cons]
      exact ih _
    | raising r =>
      rw [List.foldl_cons, List.filter_cons_of_pos (by simp), List.foldl_cons]
      exact ih _

/-- A record that raises during tokenization keeps its appended mention and
loses only its co-occurrence contribution. -/
theorem processLine_raising (kws : List String) (acc : List Mention × Cnt)
    (r : NGramRecord) :
    processLine kws acc (Line.raising r) =
      ((processLine kws acc (Line.record r)).1, acc.2) := by
  simp only [processLine]
  by_cases h1 : r.lang ≠ "en"
  · rw [if_pos h1, if_pos h1]
  · rw [if_neg h1, if_neg h1]
    by_cases h2 : r.url = ""
    · rw [if_pos h2, if_pos h2]
    · rw [if_neg h2, if_neg h2]
      by_cases h3 : (matchedKeywords kws (lower r.ngram)).isEmpty
      · rw [if_pos h3, if_pos h3]
      · rw [if_neg h3, if_neg h3]

/-! ### Date-range driver lemmas -/

theorem dateRangeLoop_eq (scan : PyDateTime → List Mention × Cnt)
    (endD : PyDateTime) :
    ∀ (n : Nat) (current : PyDateTime), endD.day + 1 - current.day = n →
      current.mins = endD.mins →
      ∀ (accM : List Mention) (accT : Cnt),
        dateRangeLoop scan current endD accM accT =
          (accM ++
            ((List.range' current.day n).map (fun d => (scan ⟨d, 1⟩).1)).flatten,
           (List.range' current.day n).foldl
             (fun c d => counterUpdate c (scan ⟨d, 1⟩).2) accT) := by
  intro n
  induction n with
  | zero =>
    intro current hn hm accM accT
    have hgt : endD.day < current.day := by omega
    have hf : dtLe current endD = false := by
      unfold dtLe
      have h1 : ¬ current.day < endD.day := by omega
      have h2 : ¬ current.day = endD.day := by omega
      simp [h1, h2]
    rw [dateRangeLoop, dif_neg (by simp [hf])]
    simp [List.range']
  | succ k ih =>
    intro current hn hm accM accT
    have hle : current.day ≤ endD.day := by omega
    have ht : dtLe current endD = true := by
      unfold dtLe
      by_cases hlt : current.day < endD.day
      · simp [hlt]
      · have he : current.day = endD.day := by omega
        simp [he, hm]
    rw [dateRangeLoop, dif_pos ht]
    rw [ih ⟨current.day + 1, current.mins⟩ (by simp; omega) (by simpa using hm)]
    rw [List.range'_succ, List.map_cons, List.flatten_cons, List.foldl_cons,
      List.append_assoc]

theorem getD_dayFold (scan : PyDateTime → List Mention × Cnt) (w : String)
    (hscan : ∀ d : Nat, keysNodup (scan ⟨d, 1⟩).2) (ds : List Nat) :
    ∀ accT : Cnt,
      (alookup (ds.foldl (fun c d => counterUpdate c (scan ⟨d, 1⟩).2) accT)
        w).getD 0 =
      (alookup accT w).getD 0 +
        (ds.map (fun d => (alookup (scan ⟨d, 1⟩).2 w).getD 0)).sum := by
  induction ds with
  | nil => intro accT; simp
  | cons d rest ih =>
    intro accT
    rw [List.foldl_cons, ih, getD_counterUpdate _ (hscan d), List.map_cons,
      List.sum_cons]
    ring

/-! ### Claim theorems -/

/-- C1: a single-word keyword (no space) matches an n-gram if and only if
the lowercased n-gram equals the lowercased keyword, and a multi-word
keyword (containing a space) matches if and only if the lowercased keyword
is a substring of the lowercased n-gram. -/
theorem keyword_match_spec (kw ngram : String) :
    (containsChar kw ' ' = false →
      (keywordMatchCond (lower ngram) (lower kw) = true ↔
        lower ngram = lower kw)) ∧
    (containsChar kw ' ' = true →
      (keywordMatchCond (lower ngram) (lower kw) = true ↔
        substrIn (lower kw) (lower ngram) = true)) := by
  constructor
  · intro h
    unfold keywordMatchCond
    rw [containsChar_lower_space, h]
    simp
  · intro h
    unfold keywordMatchCond
    rw [containsChar_lower_space, h]
    simp

/-- Witness for C1: a single-word keyword matching case-insensitively, and
a multi-word keyword matching as a substring. -/
theorem keyword_match_spec_witness :
    keywordMatchCond (lower "Uncertainty") (lower "uncertainty") = true ∧
    keywordMatchCond (lower "economic Uncertainty rose")
      (lower "economic uncertainty") = true :=
  ⟨((keyword_match_spec "uncertainty" "Uncertainty").1 (by decide)).mpr
      (by decide),
   ((keyword_match_spec "economic uncertainty"
      "economic Uncertainty rose").2 (by decide)).mpr (by decide)⟩

/-- C6: a transport error or a non-200 HTTP status yields an empty mention
list and an empty co-occurrence counter for that timestamp. -/
theorem fetch_failure_empty (kws : List String) (status : Nat)
    (lines : List Line) (h : status ≠ 200) :
    process_ngram_file kws FetchOutcome.transportError = ([], []) ∧
    process_ngram_file kws (FetchOutcome.response status lines) = ([], []) := by
  constructor
  · rfl
  · show (if status ≠ 200 then (([], []) : List Mention × Cnt)
      else scanLines kws lines) = ([], [])
    rw [if_pos h]

/-- Witness for C6: a 404 response with a line that would otherwise match
still yields an empty result. -/
theorem fetch_failure_empty_witness :
    process_ngram_file ["uncertainty"] (FetchOutcome.response 404
      [Line.record ⟨"en", "http://a.com/x", "uncertainty", "", "",
        "20240101"⟩]) = ([], []) :=
  (fetch_failure_empty ["uncertainty"] 404
    [Line.record ⟨"en", "http://a.com/x", "uncertainty", "", "",
      "20240101"⟩] (by decide)).2

/-- C7 counterexample: the claim as stated is false on the code.  A record
with a truthy non-string `pre` field (the JSON number 1) matches the
keyword, has its mention appended, and only then raises at `pre.split()`;
the `except` handler keeps the mention.  So the result over the whole
stream differs from the result over the stream with the bad lines
removed (which is empty). -/
theorem bad_lines_skipped_counterexample :
    ¬ (scanLines ["uncertainty"]
        [Line.raising ⟨"en", "http://a.com/x", "uncertainty", "1", "",
          "20240101"⟩] =
      scanLines ["uncertainty"]
        ([Line.raising ⟨"en", "http://a.com/x", "uncertainty", "1", "",
          "20240101"⟩].filter lineOk)) := by
  decide

/-- C7 amended: lines that are not valid JSON, or records whose processing
raises before a mention is emitted, are logged and skipped, and the result
over the whole stream equals the result over the stream with those lines
removed; a record that raises during co-occurrence tokenization does so
after its mention is appended, so the handler keeps that mention and only
the record's co-occurrence contribution is lost. -/
theorem bad_lines_skipped_amended (kws : List String) (lines : List Line) :
    (scanLines kws lines =
      scanLines kws (lines.filter (fun l => l ≠ Line.malformed))) ∧
    ∀ (acc : List Mention × Cnt) (r : NGramRecord),
      processLine kws acc (Line.raising r) =
        ((processLine kws acc (Line.record r)).1, acc.2) := by
  constructor
  · unfold scanLines
    exact foldl_processLine_filter kws lines ([], [])
  · intro acc r
    exact processLine_raising kws acc r

/-- C8: every emitted mention's keywords field holds exactly one keyword
(the loop breaks at the first match). -/
theorem mention_single_keyword (kws : List String) (lines : List Line)
    (m : Mention) (hm : m ∈ (scanLines kws lines).1) :
    m.keywords.length = 1 := by
  rcases scan_fold_mention kws lines ([], []) m hm with hacc | ⟨⟨kw, hk⟩, _⟩
  · exact absurd hacc (List.not_mem_nil m)
  · rw [hk]
    rfl

/-- Witness for C8: an n-gram matching two configured multi-word keywords
still yields a mention with a single keyword. -/
theorem mention_single_keyword_witness :
    (Mention.mk "20240101" "http://a.com/x" "a.com"
      ["economic uncertainty"] "economic uncertainty about policy"
      "economic uncertainty about policy").keywords.length = 1 :=
  mention_single_keyword ["economic uncertainty", "uncertainty about"]
    [Line.record ⟨"en", "http://a.com/x", "Economic uncertainty about policy",
      "", "", "20240101"⟩] _ (by decide)

/-- C9: domain extraction never indexes out of bounds: a URL containing
`//` splits on `/` into at least three parts, and any split has at least
one part. -/
theorem domain_extraction_total (url : String) :
    (substrIn "//" url = true → 2 < (splitChar '/' url.data).length) ∧
    0 < (splitChar '/' url.data).length := by
  constructor
  · intro h
    have hinf : ("//".data) <:+: url.data := of_decide_eq_true h
    have h2 : ("//".data).count '/' = 2 := by decide
    have hcount : 2 ≤ url.data.count '/' := by
      rcases hinf with ⟨s, t, he⟩
      rw [← he, List.count_append, List.count_append, h2]
      omega
    rw [splitChar_length]
    omega
  · rw [splitChar_length]
    omega

/-- Witness for C9: a protocol-qualified URL splits into more than three
parts, so index 2 is in bounds. -/
theorem domain_extraction_total_witness :
    2 < (splitChar '/' ("http://example.com/path").data).length :=
  (domain_extraction_total "http://example.com/path").1 (by decide)

/-- C5: the context is pre, n-gram and post joined with single spaces and
stripped, truncated to at most 500 characters: a short context is unchanged,
a long one is cut to exactly 500; every emitted mention's context is so
bounded. -/
theorem context_truncation_spec (pre ng post : String) :
    ((pyStrip (pre ++ " " ++ ng ++ " " ++ post)).length ≤ 500 →
      buildContext pre ng post = pyStrip (pre ++ " " ++ ng ++ " " ++ post)) ∧
    (500 < (pyStrip (pre ++ " " ++ ng ++ " " ++ post)).length →
      buildContext pre ng post =
        strTake (pyStrip (pre ++ " " ++ ng ++ " " ++ post)) 500 ∧
      (buildContext pre ng post).length = 500) ∧
    ∀ (kws : List String) (lines : List Line) (m : Mention),
      m ∈ (scanLines kws lines).1 → m.context.length ≤ 500 := by
  refine ⟨?_, ?_, ?_⟩
  · intro hle
    unfold buildContext
    by_cases h : pyStrip (pre ++ " " ++ ng ++ " " ++ post) = ""
    · rw [if_pos h, h]
    · rw [if_neg h]
      rw [length_data] at hle
      show String.mk ((pyStrip (pre ++ " " ++ ng ++ " " ++ post)).data.take 500)
        = pyStrip (pre ++ " " ++ ng ++ " " ++ post)
      rw [List.take_of_length_le hle]
  · intro hgt
    have h : ¬ pyStrip (pre ++ " " ++ ng ++ " " ++ post) = "" := by
      intro he
      rw [he] at hgt
      exact absurd hgt (by decide)
    constructor
    · unfold buildContext
      rw [if_neg h]
    · unfold buildContext
      rw [if_neg h]
      rw [length_data] at hgt
      show ((pyStrip (pre ++ " " ++ ng ++ " " ++ post)).data.take 500).length
        = 500
      rw [List.length_take]
      omega
  · intro kws lines m hm
    rcases scan_fold_mention kws lines ([], []) m hm with
      hacc | ⟨_, p, n, q, hc⟩
    · exact absurd hacc (List.not_mem_nil m)
    · rw [hc]
      exact buildContext_length_le p n q

/-- Witness for C5: a short context passes through unchanged. -/
theorem context_truncation_spec_witness :
    buildContext "Rising" "uncertainty" "weighs on markets" =
      pyStrip ("Rising" ++ " " ++ "uncertainty" ++ " " ++
        "weighs on markets") :=
  (context_truncation_spec "Rising" "uncertainty" "weighs on markets").1
    (by decide)

/-- C2: the aggregated mention table holds exactly one row for each
(date, url, context) key present in the concatenation of the readable
files' rows (hence at most one row per distinct key), and is sorted in
ascending order of the parsed date. -/
theorem aggregate_mentions_spec (td : String → Nat)
    (files : List (Option (List MRow))) :
    (∀ k : String × String × String,
      countKey (aggregate_mentions td files) k =
        if ((files.filterMap id).flatten).any (fun r => mkey r == k) then 1
        else 0) ∧
    List.Sorted (fun a b => td a.date ≤ td b.date)
      (aggregate_mentions td files) := by
  unfold aggregate_mentions
  by_cases hemp : (files.filterMap id).isEmpty
  · rw [if_pos hemp]
    have hnil : (files.filterMap id).flatten = [] := by
      rw [List.isEmpty_iff] at hemp
      rw [hemp]
      rfl
    constructor
    · intro k
      rw [hnil, countKey_nil]
      simp
    · exact List.sorted_nil
  · rw [if_neg hemp]
    have hperm := List.perm_insertionSort
      (fun a b => td a.date ≤ td b.date)
      (dropDupsAux [] ((files.filterMap id).flatten))
    constructor
    · intro k
      unfold countKey
      rw [hperm.countP_eq]
      have := countKey_dropDupsAux ((files.filterMap id).flatten) [] k
      unfold countKey at this
      rw [this]
      simp
    · haveI : IsTotal MRow (fun a b => td a.date ≤ td b.date) :=
        ⟨fun a b => Nat.le_total _ _⟩
      haveI : IsTrans MRow (fun a b => td a.date ≤ td b.date) :=
        ⟨fun a b c => Nat.le_trans⟩
      exact List.sorted_insertionSort _ _

/-- C3: with each readable co-occurrence file listing each word at most
once, the aggregated count of every word is the sum of its counts across
all readable files, and the output is sorted by count descending. -/
theorem aggregate_cooccurrences_spec
    (files : List (Option (List (String × Int))))
    (hnodup : ∀ rows, some rows ∈ files → keysNodup rows) :
    (∀ w : String,
      (alookup (aggregate_cooccurrences files) w).getD 0 =
        (files.map (fun fo =>
          match fo with
          | none => (0 : Int)
          | some rows => sumCounts rows w)).sum) ∧
    List.Sorted (fun a b => b.2 ≤ a.2) (aggregate_cooccurrences files) := by
  unfold aggregate_cooccurrences
  have hmaps : ∀ w : String,
      (files.map (fun fo =>
        match fo with
        | none => (0 : Int)
        | some rows => (lastVal rows w).getD 0)) =
      (files.map (fun fo =>
        match fo with
        | none => (0 : Int)
        | some rows => sumCounts rows w)) := by
    intro w
    apply List.map_congr_left
    intro fo hfo
    cases fo with
    | none => rfl
    | some rows => exact getD_lastVal_eq_sumCounts (hnodup rows hfo) w
  by_cases hemp : (files.foldl
      (fun wc fo =>
        match fo with
        | none => wc
        | some rows => counterUpdate wc (dictOfPairs rows)) []).isEmpty
  · rw [if_pos hemp]
    constructor
    · intro w
      have hfold := getD_files_fold files w [] keysNodup_nil
      rw [List.isEmpty_iff] at hemp
      rw [hemp] at hfold
      rw [← hmaps w]
      have hz : (alookup ([] : Cnt) w).getD 0 = 0 := rfl
      omega
    · exact List.sorted_nil
  · rw [if_neg hemp]
    constructor
    · intro w
      have hperm := List.perm_insertionSort
        (fun (a b : String × Int) => b.2 ≤ a.2)
        (files.foldl
          (fun wc fo =>
            match fo with
            | none => wc
            | some rows => counterUpdate wc (dictOfPairs rows)) [])
      rw [← alookup_of_perm (keysNodup_files_fold files [] keysNodup_nil)
        hperm.symm w]
      rw [getD_files_fold files w [] keysNodup_nil, ← hmaps w]
      rw [show (alookup ([] : Cnt) w).getD 0 = 0 from rfl, zero_add]
    · haveI : IsTotal (String × Int) (fun a b => b.2 ≤ a.2) :=
        ⟨fun a b => Int.le_total b.2 a.2⟩
      haveI : IsTrans (String × Int) (fun a b => b.2 ≤ a.2) :=
        ⟨fun a b c h1 h2 => le_trans h2 h1⟩
      exact List.sorted_insertionSort _ _

/-- Witness for C3: counts for the same word in two readable files add. -/
theorem aggregate_cooccurrences_spec_witness :
    (alookup (aggregate_cooccurrences
      [some [("markets", 3), ("policy", 2)], none, some [("markets", 4)]])
      "markets").getD 0 = 7 := by
  have h := (aggregate_cooccurrences_spec
    [some [("markets", 3), ("policy", 2)], none, some [("markets", 4)]]
    (by
      intro rows hr
      simp only [List.mem_cons, List.not_mem_nil, or_false,
        Option.some.injEq, reduceCtorEq, false_or] at hr
      rcases hr with h | h <;> subst h <;> decide)).1 "markets"
  rw [h]
  decide

/-- C10: in word-cloud aggregation, within one file a later entry for the
same text overwrites an earlier one (only the last value contributes),
across files values for the same word are summed, and the output is sorted
by value descending. -/
theorem aggregate_wordcloud_spec
    (files : List (Option (List (String × Int)))) :
    (∀ w : String,
      (alookup (aggregate_wordcloud files) w).getD 0 =
        (files.map (fun fo =>
          match fo with
          | none => (0 : Int)
          | some rows => (lastVal rows w).getD 0)).sum) ∧
    List.Sorted (fun a b => b.2 ≤ a.2) (aggregate_wordcloud files) := by
  unfold aggregate_wordcloud
  by_cases hemp : (files.foldl
      (fun wc fo =>
        match fo with
        | none => wc
        | some rows => counterUpdate wc (dictOfPairs rows)) []).isEmpty
  · rw [if_pos hemp]
    constructor
    · intro w
      have hfold := getD_files_fold files w [] keysNodup_nil
      rw [List.isEmpty_iff] at hemp
      rw [hemp] at hfold
      have hz : (alookup ([] : Cnt) w).getD 0 = 0 := rfl
      omega
    · exact List.sorted_nil
  · rw [if_neg hemp]
    constructor
    · intro w
      have hperm := List.perm_insertionSort
        (fun (a b : String × Int) => b.2 ≤ a.2)
        (files.foldl
          (fun wc fo =>
            match fo with
            | none => wc
            | some rows => counterUpdate wc (dictOfPairs rows)) [])
      rw [← alookup_of_perm (keysNodup_files_fold files [] keysNodup_nil)
        hperm.symm w]
      rw [getD_files_fold files w [] keysNodup_nil]
      rw [show (alookup ([] : Cnt) w).getD 0 = 0 from rfl, zero_add]
    · haveI : IsTotal (String × Int) (fun a b => b.2 ≤ a.2) :=
        ⟨fun a b => Int.le_total b.2 a.2⟩
      haveI : IsTrans (String × Int) (fun a b => b.2 ≤ a.2) :=
        ⟨fun a b c h1 h2 => le_trans h2 h1⟩
      exact List.sorted_insertionSort _ _

/-- C4: with start and end given as dates (midnight datetimes) with start
not after end, the driver scans once per calendar day from start to end
inclusive at 00:01, returning the concatenated per-day mention lists and
the per-word sums of the per-day counters. -/
theorem process_date_range_spec (scan : PyDateTime → List Mention × Cnt)
    (s e : PyDateTime) (hs : s.mins = 0) (he : e.mins = 0)
    (hd : s.day ≤ e.day)
    (hscan : ∀ d : Nat, keysNodup (scan ⟨d, 1⟩).2) :
    (process_date_range scan s e).1 =
      ((List.range' s.day (e.day - s.day + 1)).map
        (fun d => (scan ⟨d, 1⟩).1)).flatten ∧
    ∀ w : String,
      (alookup (process_date_range scan s e).2 w).getD 0 =
        ((List.range' s.day (e.day - s.day + 1)).map
          (fun d => (alookup (scan ⟨d, 1⟩).2 w).getD 0)).sum := by
  unfold process_date_range
  rw [dateRangeLoop_eq scan e (e.day - s.day + 1) s (by omega)
    (by rw [hs, he])]
  constructor
  · rw [List.nil_append]
  · intro w
    rw [getD_dayFold scan w hscan, alookup_nil, Option.getD_none, zero_add]

/-- Witness for C4: a three-day range accumulates three per-day counts. -/
theorem process_date_range_spec_witness :
    (alookup (process_date_range
      (fun _ => ([], [("w", (1 : Int))])) ⟨0, 0⟩ ⟨2, 0⟩).2 "w").getD 0
      = 3 := by
  have h := (process_date_range_spec (fun _ => ([], [("w", (1 : Int))]))
    ⟨0, 0⟩ ⟨2, 0⟩ rfl rfl (by decide)
    (fun d => by show keysNodup [("w", (1 : Int))]; decide)).2 "w"
  rw [h]
  decide

end UncertaintyPrevalence
